import Mathlib

/-!
Formal model of the city-meetup search core of this repository.

The repository snapshot contains only the GUI page
`src/pages/2_🤝_City_Meetup.py`; the algorithmic core it imports
(`utils.meetup_utils`: `load_city_data`, `run_search`, `haversine_distance`)
is not present.  Following the specification, the core is modelled here from
the spec's own description (§4 GeoMath / CityGraph / Heuristics /
SearchEngine), while the GUI-side definitions (`cities_state`, `gui_success`,
`gui_show_failure_stats`) are embedded directly from the page source.
-/

/-- Modelled from the spec: `GeoMath.distance` — great-circle distance via the
haversine formula (spec §4.1); the implementation file `utils/meetup_utils.py`
is missing from the snapshot.  The transcendental primitives are abstracted as
parameters `sinF cosF asinF sqrtF`, `R` is the Earth radius and `degToRad` the
degree-to-radian conversion factor, so the definition stays executable over ℚ. -/
def haversine_distance (sinF cosF asinF sqrtF : ℚ → ℚ) (R degToRad : ℚ)
    (lat1 lon1 lat2 lon2 : ℚ) : ℚ :=
  let phi1 := lat1 * degToRad
  let phi2 := lat2 * degToRad
  let dphi := (lat2 - lat1) * degToRad
  let dlam := (lon2 - lon1) * degToRad
  let a := sinF (dphi / 2) * sinF (dphi / 2) +
    cosF phi1 * cosF phi2 * (sinF (dlam / 2) * sinF (dlam / 2))
  R * (2 * asinF (sqrtF a))

/-- Embedded from `src/pages/2_🤝_City_Meetup.py` line 41: a city record
holds `state`, `lat`, `lon`. -/
structure CityInfo where
  state : String
  lat : ℚ
  lon : ℚ
deriving DecidableEq

/-- Embedded from `src/pages/2_🤝_City_Meetup.py` lines 41–42: the dict
comprehension filtering the catalog to the cities of one state. -/
def cities_state (cities : List (String × CityInfo)) (s : String) :
    List (String × CityInfo) :=
  cities.filter (fun ci => ci.2.state == s)

/-- Modelled from the spec: the CityGraph component (spec §4.2) — the city
catalog plus an adjacency list; edge cost is a function of the two endpoint
cities (computed from coordinates in the real code, abstract here). -/
structure CityGraph where
  cities : List String
  nbrs : String → List String
  cost : String → String → ℚ

/-- The graph `run_search` receives from the page: the catalog's key list
plus adjacency and cost data (page lines 21 and 116–122). -/
def mkGraph (catalog : List (String × CityInfo)) (nbrs : String → List String)
    (cost : String → String → ℚ) : CityGraph :=
  ⟨catalog.map Prod.fst, nbrs, cost⟩

/-- Modelled from the spec: the two search algorithms (spec §4.4). -/
inductive Algo
  | aStar
  | greedy
deriving DecidableEq

/-- Modelled from the spec: the two heuristic strategies (spec §4.3). -/
inductive Heur
  | straight
  | road
deriving DecidableEq

/-- Modelled from the spec (§4.3): the two cost-to-go estimators over a base
distance function `d` (GeoMath.distance in the real code): Straight-line is
`d` itself, Road-distance inflates it by the fixed factor 1.4. -/
def heuristicFn : Heur → (String → String → ℚ) → String → String → ℚ
  | Heur.straight, d, c, t => d c t
  | Heur.road, d, c, t => d c t * (7 / 5)

/-- Modelled from the spec: a transient search node (spec §3 SearchNode) —
a graph location plus the cumulative cost from the origin. -/
structure SearchNode where
  city : String
  gcost : ℚ
deriving DecidableEq

/-- Modelled from the spec (§4.4 step 1): the frontier score — cumulative
cost plus heuristic for A*, heuristic only for Greedy Best-First. -/
def scoreOf (alg : Algo) (h : String → ℚ) (n : SearchNode) : ℚ :=
  match alg with
  | Algo.aStar => n.gcost + h n.city
  | Algo.greedy => h n.city

/-- Modelled from the spec (§4.4 step 5): strict "comes earlier in the
frontier" order — lower score first, ties by lower cumulative cost, then by
city identifier. -/
def nodeLT (sc : SearchNode → ℚ) (a b : SearchNode) : Bool :=
  decide (sc a < sc b) ||
    (decide (sc a = sc b) &&
      (decide (a.gcost < b.gcost) ||
        (decide (a.gcost = b.gcost) && decide (a.city < b.city))))

/-- Pop helper: select the least element (w.r.t. `lt`) among `c :: xs`,
returning it together with the remaining elements. -/
def selectMin (lt : SearchNode → SearchNode → Bool) :
    SearchNode → List SearchNode → SearchNode × List SearchNode
  | c, [] => (c, [])
  | c, x :: xs =>
    if lt x c then
      ((selectMin lt x xs).1, c :: (selectMin lt x xs).2)
    else
      ((selectMin lt c xs).1, x :: (selectMin lt c xs).2)

/-- First-match association lookup (the visited / cost-so-far and predecessor
tables of spec §5 are maps; newest binding shadows older ones). -/
def lookupS {α : Type} : List (String × α) → String → Option α
  | [], _ => none
  | (k, v) :: rest, c => if k = c then some v else lookupS rest c

/-- Modelled from the spec (§5): the state owned by one in-flight search call —
priority frontier, cost-so-far table, predecessor map, expanded (visited)
records, and the nodes-generated counter. -/
structure SearchState where
  frontier : List SearchNode
  best : List (String × ℚ)
  pred : List (String × String)
  expanded : List (String × ℚ)
  gen : Nat

/-- Modelled from the spec (§3 SearchResult): path, meeting point and total
cost are absent on failure; the nodes-generated count is always reported. -/
structure SearchResult where
  path : Option (List String)
  meeting_point : Option String
  total_cost : Option ℚ
  nodes_generated : Nat
deriving DecidableEq

/-- Modelled from the spec (§9): path reconstruction by following predecessor
back-references, fuelled to keep the walk finite. -/
def reconstruct (pred : List (String × String)) : Nat → String → List String
  | 0, c => [c]
  | fuel + 1, c =>
    match lookupS pred c with
    | none => [c]
    | some p => reconstruct pred fuel p ++ [c]

/-- Modelled from the spec (§3): total cost is the sum of edge costs along a
vertex sequence. -/
def walkCost (g : CityGraph) : List String → ℚ
  | a :: b :: rest => g.cost a b + walkCost g (b :: rest)
  | _ => 0

/-- Boolean test that consecutive vertices of a list are graph neighbors. -/
def chainAdjB (g : CityGraph) : List String → Bool
  | a :: b :: rest => decide (b ∈ g.nbrs a) && chainAdjB g (b :: rest)
  | _ => true

/-- `l` is a walk from `a` to `b` in `g`: it starts at `a`, ends at `b` and
its consecutive vertices are adjacent. -/
def IsWalk (g : CityGraph) (a b : String) (l : List String) : Prop :=
  l.head? = some a ∧ l.getLast? = some b ∧ chainAdjB g l = true

/-- Failure outcome (spec §4.4 step 6, §7): absent path and meeting point,
statistics still populated. -/
def failResult (st : SearchState) : SearchResult :=
  { path := none, meeting_point := none, total_cost := none,
    nodes_generated := st.gen }

/-- Success outcome (spec §4.4 step 3, §9): path reconstructed from the
predecessor map; the destination itself is reported as the meeting point. -/
def successResult (g : CityGraph) (st : SearchState) (t : String) : SearchResult :=
  { path := some (reconstruct st.pred st.pred.length t),
    meeting_point := some t,
    total_cost := some (walkCost g (reconstruct st.pred st.pred.length t)),
    nodes_generated := st.gen }

/-- Modelled from the spec (§4.4 step 4): relax one neighbor `m` of the popped
node `cur` — if `m` is unvisited or reachable strictly cheaper than recorded,
update the tables, replace `m`'s frontier entry and count a generated node. -/
def expandNeighbor (g : CityGraph) (cur : SearchNode) (st : SearchState)
    (m : String) : SearchState :=
  let gnew := cur.gcost + g.cost cur.city m
  let improve : Bool :=
    match lookupS st.best m with
    | some old => decide (gnew < old)
    | none => true
  if improve then
    { frontier := st.frontier.filter (fun n => n.city != m) ++ [⟨m, gnew⟩],
      best := (m, gnew) :: st.best,
      pred := (m, cur.city) :: st.pred,
      expanded := st.expanded,
      gen := st.gen + 1 }
  else st

/-- Modelled from the spec (§4.4 step 4): expand a popped node over all its
neighbors. -/
def expand (g : CityGraph) (cur : SearchNode) (st : SearchState) : SearchState :=
  (g.nbrs cur.city).foldl (expandNeighbor g cur) st

/-- Modelled from the spec (§4.4 steps 2–6): the fuelled best-first main loop.
Each iteration pops the least-scored node (tie-broken per step 5); popping the
target reconstructs the path, an empty frontier or an exhausted expansion
bound reports failure with statistics. -/
def searchLoop (g : CityGraph) (t : String) (sc : SearchNode → ℚ) :
    Nat → SearchState → SearchResult
  | 0, st => failResult st
  | fuel + 1, st =>
    match st.frontier with
    | [] => failResult st
    | c :: xs =>
      if (selectMin (nodeLT sc) c xs).1.city = t then
        successResult g st t
      else
        searchLoop g t sc fuel
          (expand g (selectMin (nodeLT sc) c xs).1
            { frontier := (selectMin (nodeLT sc) c xs).2,
              best := st.best,
              pred := st.pred,
              expanded :=
                ((selectMin (nodeLT sc) c xs).1.city,
                  (selectMin (nodeLT sc) c xs).1.gcost) :: st.expanded,
              gen := st.gen })

/-- Modelled from the spec (§4.4 step 2): the initial state — the origin node
with cumulative cost 0 in the frontier; its generation is counted. -/
def initState (o : String) : SearchState :=
  { frontier := [⟨o, 0⟩], best := [(o, 0)], pred := [], expanded := [],
    gen := 1 }

/-- Modelled from the spec (§7): the error taxonomy surfaced to the caller. -/
inductive SearchError
  | unknownCity (name : String)
deriving DecidableEq

/-- Modelled from the spec (§4.4, §6, §7): `search(origin, destination,
algorithm, heuristic)`.  `d` abstracts the GeoMath base distance used by the
heuristics and `bound` is the maximum node-expansion bound of step 6.
Unknown city identifiers fail immediately with `UnknownCityError`. -/
def run_search (g : CityGraph) (d : String → String → ℚ) (bound : Nat)
    (origin dest : String) (alg : Algo) (ht : Heur) :
    Except SearchError SearchResult :=
  if origin ∈ g.cities then
    if dest ∈ g.cities then
      Except.ok (searchLoop g dest (scoreOf alg (fun c => heuristicFn ht d c dest))
        bound (initState origin))
    else Except.error (SearchError.unknownCity dest)
  else Except.error (SearchError.unknownCity origin)

/-- Embedded from `src/pages/2_🤝_City_Meetup.py`: the result dictionary as
the page reads it (`path`, `meeting_point`, `total_cost`, `nodes_generated`,
`time_taken`); `none` at the outer option models a falsy `result`. -/
structure GuiResult where
  path : Option (List String)
  meeting_point : Option String
  total_cost : Option ℚ
  nodes_generated : Option Nat
  time_taken : ℚ
deriving DecidableEq

/-- Embedded from `src/pages/2_🤝_City_Meetup.py` line 124: the page reports
success exactly when `result and result["path"] is not None and
result["total_cost"] is not None`. -/
def gui_success (result : Option GuiResult) : Bool :=
  match result with
  | none => false
  | some r => r.path.isSome && r.total_cost.isSome

/-- Embedded from `src/pages/2_🤝_City_Meetup.py` lines 145–153: in the
failure branch, statistics are shown only when `result` is truthy and
`result["nodes_generated"] is not None`. -/
def gui_show_failure_stats (result : Option GuiResult) : Bool :=
  !gui_success result &&
    (match result with
     | none => false
     | some r => r.nodes_generated.isSome)

/-! ## Concrete objects used by example claims and witnesses -/

/-- The spec's three-city example graph: cities `{A, B, C}`, edges A–B and
B–C (each of cost 10), no A–C edge (spec §8). -/
def g3 : CityGraph :=
  { cities := ["A", "B", "C"],
    nbrs := fun c =>
      if c = "A" then ["B"]
      else if c = "B" then ["A", "C"]
      else if c = "C" then ["B"]
      else [],
    cost := fun _ _ => 10 }

/-- The everywhere-zero base distance, an admissible heuristic input on any
graph with nonnegative edge costs. -/
def d0 : String → String → ℚ := fun _ _ => 0

/-- The spec's disconnected example graph: cities `{A, B}`, no edges (§8). -/
def g2 : CityGraph :=
  { cities := ["A", "B"], nbrs := fun _ => [], cost := fun _ _ => 1 }

/-! ## Claim theorems -/

/-- C3: for every base distance `d` and pair (city, target), the Road-distance
heuristic equals the Straight-line heuristic multiplied by exactly 1.4. -/
theorem road_heuristic_inflates_straight_by_1_4
    (d : String → String → ℚ) (c t : String) :
    heuristicFn Heur.road d c t = heuristicFn Heur.straight d c t * 1.4 := by
  show d c t * (7 / 5) = d c t * 1.4
  norm_num

/-- C8: for trigonometric primitives satisfying `sin 0 = 0`, `sqrt 0 = 0`,
`asin 0 = 0` and oddness of `sin` (all true of the real functions used by the
code), the haversine distance of a point to itself is 0 and the distance is
symmetric in its two points. -/
theorem haversine_self_zero_and_symmetric
    (sinF cosF asinF sqrtF : ℚ → ℚ) (R degToRad : ℚ)
    (hsin0 : sinF 0 = 0) (hsqrt0 : sqrtF 0 = 0) (hasin0 : asinF 0 = 0)
    (hodd : ∀ x, sinF (-x) = - sinF x) :
    (∀ lat lon,
      haversine_distance sinF cosF asinF sqrtF R degToRad lat lon lat lon = 0) ∧
    (∀ a1 o1 a2 o2,
      haversine_distance sinF cosF asinF sqrtF R degToRad a1 o1 a2 o2 =
        haversine_distance sinF cosF asinF sqrtF R degToRad a2 o2 a1 o1) := by
  constructor
  · intro lat lon
    simp [haversine_distance, hsin0, hsqrt0, hasin0]
  · intro a1 o1 a2 o2
    simp only [haversine_distance]
    have e1 : sinF ((a1 - a2) * degToRad / 2) =
        - sinF ((a2 - a1) * degToRad / 2) := by
      rw [show (a1 - a2) * degToRad / 2 = -((a2 - a1) * degToRad / 2) from by ring,
        hodd]
    have e2 : sinF ((o1 - o2) * degToRad / 2) =
        - sinF ((o2 - o1) * degToRad / 2) := by
      rw [show (o1 - o2) * degToRad / 2 = -((o2 - o1) * degToRad / 2) from by ring,
        hodd]
    rw [e2, e1]
    have harg :
        sinF ((a2 - a1) * degToRad / 2) * sinF ((a2 - a1) * degToRad / 2) +
          cosF (a1 * degToRad) * cosF (a2 * degToRad) *
            (sinF ((o2 - o1) * degToRad / 2) * sinF ((o2 - o1) * degToRad / 2)) =
        - sinF ((a2 - a1) * degToRad / 2) * - sinF ((a2 - a1) * degToRad / 2) +
          cosF (a2 * degToRad) * cosF (a1 * degToRad) *
            (- sinF ((o2 - o1) * degToRad / 2) * - sinF ((o2 - o1) * degToRad / 2)) := by
      ring
    rw [harg]

/-- C8 witness: the theorem applied to the identity instantiation of the
trigonometric primitives at concrete points. -/
theorem haversine_self_zero_and_symmetric_witness :
    haversine_distance (fun x => x) (fun x => x) (fun x => x) (fun x => x)
      6371 1 12 77 12 77 = 0 ∧
    haversine_distance (fun x => x) (fun x => x) (fun x => x) (fun x => x)
      6371 1 1 2 3 4 =
      haversine_distance (fun x => x) (fun x => x) (fun x => x) (fun x => x)
        6371 1 3 4 1 2 :=
  ⟨(haversine_self_zero_and_symmetric (fun x => x) (fun x => x) (fun x => x)
      (fun x => x) 6371 1 rfl rfl rfl (fun _ => rfl)).1 12 77,
   (haversine_self_zero_and_symmetric (fun x => x) (fun x => x) (fun x => x)
      (fun x => x) 6371 1 rfl rfl rfl (fun _ => rfl)).2 1 2 3 4⟩

/-- C10: the page reports success exactly when the result is truthy with
non-absent path and total cost, and shows failure statistics only when the
result is truthy, not a success, and its nodes-generated field is non-absent. -/
theorem gui_success_and_failure_stats (result : Option GuiResult) :
    (gui_success result = true ↔
      ∃ r, result = some r ∧ r.path ≠ none ∧ r.total_cost ≠ none) ∧
    (gui_show_failure_stats result = true →
      gui_success result = false ∧
        ∃ r, result = some r ∧ r.nodes_generated ≠ none) := by
  cases result with
  | none => simp [gui_success, gui_show_failure_stats]
  | some r =>
    constructor
    · simp [gui_success, Option.isSome_iff_ne_none]
    · intro h
      simp only [gui_show_failure_stats, Bool.and_eq_true, Bool.not_eq_eq_eq_not,
        Bool.not_true] at h
      refine ⟨by simpa using h.1, r, rfl, ?_⟩
      simpa [Option.isSome_iff_ne_none] using h.2

/-- C9: any city name taken from the state-filtered selectboxes is a key of
the loaded catalog, so a search launched from the page never takes the
unknown-city failure path. -/
theorem gui_selectbox_cities_known
    (catalog : List (String × CityInfo)) (nbrs : String → List String)
    (cost : String → String → ℚ) (d : String → String → ℚ) (bound : Nat)
    (s1 s2 o t : String) (alg : Algo) (ht : Heur)
    (ho : o ∈ (cities_state catalog s1).map Prod.fst)
    (hd : t ∈ (cities_state catalog s2).map Prod.fst) :
    ∃ r, run_search (mkGraph catalog nbrs cost) d bound o t alg ht =
      Except.ok r := by
  have hmem : ∀ s c, c ∈ (cities_state catalog s).map Prod.fst →
      c ∈ catalog.map Prod.fst := by
    intro s c hc
    rcases List.mem_map.1 hc with ⟨ci, hci, rfl⟩
    exact List.mem_map.2 ⟨ci, (List.mem_filter.1 hci).1, rfl⟩
  have ho' : o ∈ (mkGraph catalog nbrs cost).cities := hmem _ _ ho
  have hd' : t ∈ (mkGraph catalog nbrs cost).cities := hmem _ _ hd
  refine ⟨searchLoop (mkGraph catalog nbrs cost) t
    (scoreOf alg (fun c => heuristicFn ht d c t)) bound (initState o), ?_⟩
  rw [run_search, if_pos ho', if_pos hd']

/-- A tiny two-city catalog used to exercise the page-level theorems. -/
def catalogMH : List (String × CityInfo) :=
  [("Mumbai", ⟨"MH", 19, 73⟩), ("Pune", ⟨"MH", 18, 74⟩)]

/-- C9 witness: the theorem applied to a concrete catalog and selections. -/
theorem gui_selectbox_cities_known_witness :
    ∃ r, run_search (mkGraph catalogMH (fun _ => []) (fun _ _ => 1)) d0 1
      "Mumbai" "Pune" Algo.aStar Heur.straight = Except.ok r :=
  gui_selectbox_cities_known catalogMH (fun _ => []) (fun _ _ => 1) d0 1
    "MH" "MH" "Mumbai" "Pune" Algo.aStar Heur.straight
    (by simp [cities_state, catalogMH])
    (by simp [cities_state, catalogMH])

/-- C5: an origin or destination that is not a catalog key makes the search
fail immediately with `UnknownCityError`; no search state is ever built, so
no expansion happens and no partial result is produced. -/
theorem unknown_city_immediate_error (g : CityGraph)
    (d : String → String → ℚ) (bound : Nat) (o t : String)
    (alg : Algo) (ht : Heur) :
    (o ∉ g.cities → run_search g d bound o t alg ht =
      Except.error (SearchError.unknownCity o)) ∧
    (o ∈ g.cities → t ∉ g.cities → run_search g d bound o t alg ht =
      Except.error (SearchError.unknownCity t)) := by
  constructor
  · intro h
    rw [run_search, if_neg h]
  · intro h1 h2
    rw [run_search, if_pos h1, if_neg h2]

/-- C5 witness: the theorem applied to the three-city graph with the unknown
identifier `X` in each argument position. -/
theorem unknown_city_immediate_error_witness :
    run_search g3 d0 5 "X" "A" Algo.aStar Heur.straight =
      Except.error (SearchError.unknownCity "X") ∧
    run_search g3 d0 5 "A" "X" Algo.greedy Heur.road =
      Except.error (SearchError.unknownCity "X") :=
  ⟨(unknown_city_immediate_error g3 d0 5 "X" "A" Algo.aStar Heur.straight).1
      (by decide),
   (unknown_city_immediate_error g3 d0 5 "A" "X" Algo.greedy Heur.road).2
      (by decide) (by decide)⟩

/-- C2 counterexample: on the spec's three-city example the search does
return path `[A, B, C]` with total cost 20, but the reported meeting point is
the destination `C` (spec §9's single-origin reduction), not `B` as the
example sentence asserts. -/
theorem three_city_meeting_point_counterexample :
    run_search g3 d0 3 "A" "C" Algo.aStar Heur.straight =
      Except.ok { path := some ["A","B","C"], meeting_point := some "C",
                  total_cost := some 20, nodes_generated := 3 } ∧
    SearchResult.meeting_point
      { path := some ["A","B","C"], meeting_point := some "C",
        total_cost := some 20, nodes_generated := 3 } ≠ some "B" := by
  constructor
  · simp [run_search, g3, d0, searchLoop, initState, selectMin, expand,
      expandNeighbor, lookupS, nodeLT, scoreOf, heuristicFn, successResult,
      failResult, reconstruct, walkCost]
    norm_num
    simp [selectMin, nodeLT, scoreOf, successResult, failResult, reconstruct,
      lookupS, walkCost, g3]
  · simp

/-- C2 amended: on `{A, B, C}` with edges A–B and B–C of cost 10 and no A–C
edge, `search(A, C, algorithm, heuristic)` with any base distance and any
expansion bound of at least 3 returns path `[A, B, C]`, total cost 20, and
meeting point `C` (the destination, per spec §9's single-origin reduction). -/
theorem three_city_example_amended (d : String → String → ℚ) (bound : Nat)
    (hb : 3 ≤ bound) (alg : Algo) (ht : Heur) :
    run_search g3 d bound "A" "C" alg ht =
      Except.ok { path := some ["A","B","C"], meeting_point := some "C",
                  total_cost := some 20, nodes_generated := 3 } := by
  obtain ⟨m, rfl⟩ := Nat.exists_eq_add_of_le hb
  rw [Nat.add_comm]
  simp [run_search, g3, searchLoop, initState, selectMin, expand,
    expandNeighbor, lookupS, nodeLT, scoreOf, heuristicFn, successResult,
    failResult, reconstruct, walkCost]
  norm_num
  simp [selectMin, nodeLT, scoreOf, successResult, failResult, reconstruct,
    lookupS, walkCost, g3]

/-- C2 amended witness: the amended theorem applied at bound 4 with the
Greedy algorithm and Road-distance heuristic. -/
theorem three_city_example_amended_witness :
    run_search g3 d0 4 "A" "C" Algo.greedy Heur.road =
      Except.ok { path := some ["A","B","C"], meeting_point := some "C",
                  total_cost := some 20, nodes_generated := 3 } :=
  three_city_example_amended d0 4 (by decide) Algo.greedy Heur.road

theorem reconstruct_getLast (pred : List (String × String)) :
    ∀ fuel c, (reconstruct pred fuel c).getLast? = some c := by
  intro fuel
  induction fuel with
  | zero => intro c; simp [reconstruct]
  | succ n ih =>
    intro c
    rw [reconstruct]
    cases lookupS pred c with
    | none => simp
    | some p => simp [List.getLast?_concat]

theorem selectMin_cons_perm (lt : SearchNode → SearchNode → Bool) :
    ∀ xs c, ((selectMin lt c xs).1 :: (selectMin lt c xs).2).Perm (c :: xs) := by
  intro xs
  induction xs with
  | nil => intro c; simp [selectMin]
  | cons x xs ih =>
    intro c
    rw [selectMin]
    by_cases h : lt x c = true
    · simp only [if_pos h]
      exact (List.Perm.swap c _ _).trans ((ih x).cons c)
    · simp only [if_neg h]
      exact ((List.Perm.swap x _ _).trans ((ih c).cons x)).trans
        (List.Perm.swap c x xs)

theorem selectMin_mem (lt : SearchNode → SearchNode → Bool)
    (c : SearchNode) (xs : List SearchNode) :
    (selectMin lt c xs).1 ∈ c :: xs :=
  (selectMin_cons_perm lt xs c).mem_iff.1 (List.mem_cons_self _ _)

theorem searchLoop_nil (g : CityGraph) (t : String) (sc : SearchNode → ℚ)
    (n : Nat) (st : SearchState) (hf : st.frontier = []) :
    searchLoop g t sc (n + 1) st = failResult st := by
  rw [searchLoop, hf]

theorem searchLoop_cons (g : CityGraph) (t : String) (sc : SearchNode → ℚ)
    (n : Nat) (st : SearchState) (c : SearchNode) (xs : List SearchNode)
    (hf : st.frontier = c :: xs) :
    searchLoop g t sc (n + 1) st =
      if (selectMin (nodeLT sc) c xs).1.city = t then successResult g st t
      else
        searchLoop g t sc n
          (expand g (selectMin (nodeLT sc) c xs).1
            { frontier := (selectMin (nodeLT sc) c xs).2, best := st.best,
              pred := st.pred,
              expanded := ((selectMin (nodeLT sc) c xs).1.city,
                (selectMin (nodeLT sc) c xs).1.gcost) :: st.expanded,
              gen := st.gen }) := by
  rw [searchLoop, hf]

theorem searchLoop_outcome (g : CityGraph) (t : String) (sc : SearchNode → ℚ) :
    ∀ fuel st, (searchLoop g t sc fuel st).path = none ∨
      (∃ p, (searchLoop g t sc fuel st).path = some p ∧
        p.getLast? = some t ∧
        (searchLoop g t sc fuel st).meeting_point = some t) := by
  intro fuel
  induction fuel with
  | zero => intro st; left; rfl
  | succ n ih =>
    intro st
    cases hf : st.frontier with
    | nil => rw [searchLoop_nil g t sc n st hf]; left; rfl
    | cons c xs =>
      rw [searchLoop_cons g t sc n st c xs hf]
      by_cases hc : (selectMin (nodeLT sc) c xs).1.city = t
      · right
        rw [if_pos hc]
        exact ⟨_, rfl, reconstruct_getLast _ _ _, rfl⟩
      · rw [if_neg hc]
        exact ih _

/-- C6: on any graph the fuelled search is a total function whose outcome is
one of: an unknown-city error, a success whose path ends at the target, or a
failure with an absent path (empty frontier or exhausted expansion bound);
it can never loop forever. -/
theorem search_always_terminates_with_outcome (g : CityGraph)
    (d : String → String → ℚ) (bound : Nat) (o t : String)
    (alg : Algo) (ht : Heur) :
    (∃ c, run_search g d bound o t alg ht =
      Except.error (SearchError.unknownCity c)) ∨
    (∃ r, run_search g d bound o t alg ht = Except.ok r ∧
      (r.path = none ∨
        ∃ p, r.path = some p ∧ p.getLast? = some t ∧
          r.meeting_point = some t)) := by
  rw [run_search]
  by_cases ho : o ∈ g.cities
  · by_cases hd : t ∈ g.cities
    · rw [if_pos ho, if_pos hd]
      exact Or.inr ⟨_, rfl, searchLoop_outcome g t _ bound (initState o)⟩
    · rw [if_pos ho, if_neg hd]
      exact Or.inl ⟨t, rfl⟩
  · rw [if_neg ho]
    exact Or.inl ⟨o, rfl⟩

def Reachable (g : CityGraph) (o c : String) : Prop :=
  ∃ l, IsWalk g o c l

theorem chainAdjB_snoc (g : CityGraph) :
    ∀ (l : List String) (c b : String), chainAdjB g l = true →
      l.getLast? = some c → b ∈ g.nbrs c → chainAdjB g (l ++ [b]) = true := by
  intro l
  induction l with
  | nil => intro c b _ h2; simp at h2
  | cons a rest ih =>
    intro c b h1 h2 h3
    cases rest with
    | nil =>
      simp at h2
      subst h2
      simp [chainAdjB, h3]
    | cons a2 rest2 =>
      rw [chainAdjB, Bool.and_eq_true] at h1
      rw [List.getLast?_cons_cons] at h2
      have := ih c b h1.2 h2 h3
      simp only [List.cons_append]
      rw [chainAdjB]
      simp only [List.cons_append] at this
      rw [this, h1.1, Bool.and_true]

theorem walk_snoc (g : CityGraph) (o c b : String) (l : List String)
    (hw : IsWalk g o c l) (hb : b ∈ g.nbrs c) : IsWalk g o b (l ++ [b]) := by
  obtain ⟨h1, h2, h3⟩ := hw
  refine ⟨?_, ?_, ?_⟩
  · cases l with
    | nil => simp at h1
    | cons x xs => simpa using h1
  · simp [List.getLast?_concat]
  · exact chainAdjB_snoc g l c b h3 h2 hb

theorem walk_single (g : CityGraph) (o : String) : IsWalk g o o [o] :=
  ⟨rfl, rfl, rfl⟩

theorem expandNeighbor_reach (g : CityGraph) (o : String) (cur : SearchNode)
    (st : SearchState) (m : String) (hm : m ∈ g.nbrs cur.city)
    (hcur : Reachable g o cur.city)
    (hst : ∀ n ∈ st.frontier, Reachable g o n.city) :
    ∀ n ∈ (expandNeighbor g cur st m).frontier, Reachable g o n.city := by
  intro n hn
  rw [expandNeighbor] at hn
  by_cases himp : (match lookupS st.best m with
      | some old => decide (cur.gcost + g.cost cur.city m < old)
      | none => true) = true
  · simp only [himp, if_true] at hn
    rcases List.mem_append.1 hn with h | h
    · exact hst n (List.mem_of_mem_filter h)
    · simp at h
      subst h
      obtain ⟨l, hl⟩ := hcur
      exact ⟨l ++ [m], walk_snoc g o cur.city m l hl hm⟩
  · simp only [Bool.not_eq_true] at himp
    simp only [himp, if_false] at hn
    exact hst n hn

theorem expandNeighbor_gen (g : CityGraph) (cur : SearchNode)
    (st : SearchState) (m : String) :
    st.gen ≤ (expandNeighbor g cur st m).gen := by
  rw [expandNeighbor]
  by_cases himp : (match lookupS st.best m with
      | some old => decide (cur.gcost + g.cost cur.city m < old)
      | none => true) = true
  · simp only [himp, if_true]
    exact Nat.le_succ _
  · simp only [Bool.not_eq_true] at himp
    simp only [himp, if_false]
    exact le_refl _

theorem expand_reach (g : CityGraph) (o : String) (cur : SearchNode)
    (hcur : Reachable g o cur.city) :
    ∀ (ms : List String) (st : SearchState),
      (∀ m ∈ ms, m ∈ g.nbrs cur.city) →
      (∀ n ∈ st.frontier, Reachable g o n.city) →
      (∀ n ∈ (ms.foldl (expandNeighbor g cur) st).frontier, Reachable g o n.city) ∧
        st.gen ≤ (ms.foldl (expandNeighbor g cur) st).gen := by
  intro ms
  induction ms with
  | nil => intro st _ hst; exact ⟨hst, le_refl _⟩
  | cons m ms ih =>
    intro st hms hst
    have h1 := expandNeighbor_reach g o cur st m (hms m (List.mem_cons_self m ms))
      hcur hst
    have h2 := expandNeighbor_gen g cur st m
    have := ih (expandNeighbor g cur st m)
      (fun x hx => hms x (List.mem_cons_of_mem m hx)) h1
    exact ⟨this.1, le_trans h2 this.2⟩

theorem searchLoop_no_path (g : CityGraph) (o t : String) (sc : SearchNode → ℚ)
    (hnr : ¬ Reachable g o t) :
    ∀ fuel st, (∀ n ∈ st.frontier, Reachable g o n.city) → 1 ≤ st.gen →
      (searchLoop g t sc fuel st).path = none ∧
      (searchLoop g t sc fuel st).meeting_point = none ∧
      1 ≤ (searchLoop g t sc fuel st).nodes_generated := by
  intro fuel
  induction fuel with
  | zero => intro st _ hg; exact ⟨rfl, rfl, hg⟩
  | succ n ih =>
    intro st hst hg
    cases hf : st.frontier with
    | nil => rw [searchLoop_nil g t sc n st hf]; exact ⟨rfl, rfl, hg⟩
    | cons c xs =>
      rw [searchLoop_cons g t sc n st c xs hf]
      have hmem : (selectMin (nodeLT sc) c xs).1 ∈ st.frontier := by
        rw [hf]; exact selectMin_mem _ _ _
      have hreach := hst _ hmem
      have hc : ¬ (selectMin (nodeLT sc) c xs).1.city = t := by
        intro h; exact hnr (h ▸ hreach)
      rw [if_neg hc]
      have hrest : ∀ n' ∈ (selectMin (nodeLT sc) c xs).2, Reachable g o n'.city := by
        intro n' hn'
        refine hst n' ?_
        rw [hf]
        exact (selectMin_cons_perm (nodeLT sc) xs c).mem_iff.1
          (List.mem_cons_of_mem _ hn')
      have hexp := expand_reach g o (selectMin (nodeLT sc) c xs).1 hreach
        (g.nbrs (selectMin (nodeLT sc) c xs).1.city)
        { frontier := (selectMin (nodeLT sc) c xs).2, best := st.best,
          pred := st.pred,
          expanded := ((selectMin (nodeLT sc) c xs).1.city,
            (selectMin (nodeLT sc) c xs).1.gcost) :: st.expanded,
          gen := st.gen }
        (fun m hm => hm) hrest
      exact ih _ hexp.1 (le_trans hg hexp.2)

/-- C4: when origin and destination are catalog keys but no walk joins them,
the search returns a normal SearchResult (no exception) with absent path and
meeting point and a positive nodes-generated count. -/
theorem no_path_graceful_failure (g : CityGraph) (d : String → String → ℚ)
    (bound : Nat) (o t : String) (alg : Algo) (ht : Heur)
    (ho : o ∈ g.cities) (htc : t ∈ g.cities)
    (hnp : ¬ ∃ l, IsWalk g o t l) :
    ∃ r, run_search g d bound o t alg ht = Except.ok r ∧
      r.path = none ∧ r.meeting_point = none ∧ 0 < r.nodes_generated := by
  rw [run_search, if_pos ho, if_pos htc]
  refine ⟨_, rfl, ?_⟩
  exact searchLoop_no_path g o t _ hnp bound (initState o)
    (by intro n hn
        simp only [initState, List.mem_singleton] at hn
        subst hn
        exact ⟨[o], walk_single g o⟩)
    (le_refl 1)

theorem no_walk_g2 : ¬ ∃ l, IsWalk g2 "A" "B" l := by
  rintro ⟨l, h1, h2, h3⟩
  cases l with
  | nil => simp at h1
  | cons x xs =>
    cases xs with
    | nil =>
      simp at h1 h2
      subst h1
      exact absurd h2 (by decide)
    | cons y ys =>
      rw [chainAdjB, Bool.and_eq_true] at h3
      have : y ∈ g2.nbrs x := of_decide_eq_true h3.1
      simp [g2] at this

/-- C4 witness: the theorem applied to the spec's two-city disconnected
example graph. -/
theorem no_path_graceful_failure_witness :
    ∃ r, run_search g2 d0 7 "A" "B" Algo.aStar Heur.straight = Except.ok r ∧
      r.path = none ∧ r.meeting_point = none ∧ 0 < r.nodes_generated :=
  no_path_graceful_failure g2 d0 7 "A" "B" Algo.aStar Heur.straight
    (by decide) (by decide) no_walk_g2

theorem nodeLT_iff (sc : SearchNode → ℚ) (a b : SearchNode) :
    nodeLT sc a b = true ↔
      sc a < sc b ∨ (sc a = sc b ∧
        (a.gcost < b.gcost ∨ (a.gcost = b.gcost ∧ a.city < b.city))) := by
  simp [nodeLT]

theorem nodeLT_irrefl (sc : SearchNode → ℚ) (a : SearchNode) :
    nodeLT sc a a = false := by
  simp [nodeLT]

theorem nodeLT_trans (sc : SearchNode → ℚ) (a b c : SearchNode)
    (h1 : nodeLT sc a b = true) (h2 : nodeLT sc b c = true) :
    nodeLT sc a c = true := by
  rw [nodeLT_iff] at h1 h2 ⊢
  rcases h1 with h1 | ⟨e1, h1⟩
  · rcases h2 with h2 | ⟨e2, _⟩
    · exact Or.inl (lt_trans h1 h2)
    · exact Or.inl (e2 ▸ h1)
  · rcases h2 with h2 | ⟨e2, h2⟩
    · exact Or.inl (e1 ▸ h2)
    · refine Or.inr ⟨e1.trans e2, ?_⟩
      rcases h1 with h1 | ⟨f1, h1⟩
      · rcases h2 with h2 | ⟨f2, _⟩
        · exact Or.inl (lt_trans h1 h2)
        · exact Or.inl (f2 ▸ h1)
      · rcases h2 with h2 | ⟨f2, h2⟩
        · exact Or.inl (f1 ▸ h2)
        · exact Or.inr ⟨f1.trans f2, lt_trans h1 h2⟩

theorem nodeLT_antisymm (sc : SearchNode → ℚ) (a b : SearchNode)
    (h1 : nodeLT sc a b = false) (h2 : nodeLT sc b a = false) : a = b := by
  have n1 : ¬ nodeLT sc a b = true := by simp [h1]
  have n2 : ¬ nodeLT sc b a = true := by simp [h2]
  rw [nodeLT_iff] at n1 n2
  push_neg at n1 n2
  have hsc : sc a = sc b := le_antisymm n2.1 n1.1
  have hg : a.gcost = b.gcost := le_antisymm (n2.2 hsc.symm).1 (n1.2 hsc).1
  have hc : a.city = b.city :=
    le_antisymm ((n2.2 hsc.symm).2 hg.symm) ((n1.2 hsc).2 hg)
  cases a
  cases b
  simp_all

theorem nodeLT_false_elim (sc : SearchNode → ℚ) (a b : SearchNode)
    (h : nodeLT sc a b = false) : nodeLT sc b a = true ∨ a = b := by
  cases hb : nodeLT sc b a with
  | true => exact Or.inl rfl
  | false => exact Or.inr (nodeLT_antisymm sc a b h hb)

theorem selectMin_min (sc : SearchNode → ℚ) :
    ∀ (xs : List SearchNode) (c x : SearchNode), x ∈ c :: xs →
      nodeLT sc x (selectMin (nodeLT sc) c xs).1 = false := by
  intro xs
  induction xs with
  | nil =>
    intro c x hx
    simp at hx
    subst hx
    simp [selectMin, nodeLT_irrefl]
  | cons y ys ih =>
    intro c x hx
    rw [selectMin]
    by_cases h : nodeLT sc y c = true
    · simp only [if_pos h]
      rcases List.mem_cons.1 hx with rfl | hx'
      · cases hc : nodeLT sc x (selectMin (nodeLT sc) y ys).1 with
        | false => rfl
        | true =>
          have := nodeLT_trans sc y x _ h hc
          have hy := ih y y (List.mem_cons_self y ys)
          rw [this] at hy
          exact hy
      · exact ih y x hx'
    · simp only [if_neg h]
      have hfalse : nodeLT sc y c = false := by
        cases hyc : nodeLT sc y c with
        | false => rfl
        | true => exact absurd hyc h
      rcases List.mem_cons.1 hx with rfl | hx'
      · exact ih x x (List.mem_cons_self x ys)
      · rcases List.mem_cons.1 hx' with rfl | hx''
        · cases hc : nodeLT sc x (selectMin (nodeLT sc) c ys).1 with
          | false => rfl
          | true =>
            rcases nodeLT_false_elim sc x c hfalse with hcx | rfl
            · have := nodeLT_trans sc c x _ hcx hc
              have hcm := ih c c (List.mem_cons_self c ys)
              rw [this] at hcm
              exact hcm
            · have hcm := ih x x (List.mem_cons_self x ys)
              rw [hc] at hcm
              exact hcm
        · exact ih c x (List.mem_cons_of_mem c hx'')

theorem selectMin_perm_eq (sc : SearchNode → ℚ) (c1 c2 : SearchNode)
    (xs1 xs2 : List SearchNode) (hp : (c1 :: xs1).Perm (c2 :: xs2)) :
    (selectMin (nodeLT sc) c1 xs1).1 = (selectMin (nodeLT sc) c2 xs2).1 ∧
    (selectMin (nodeLT sc) c1 xs1).2.Perm (selectMin (nodeLT sc) c2 xs2).2 := by
  have m1mem : (selectMin (nodeLT sc) c1 xs1).1 ∈ c2 :: xs2 :=
    hp.mem_iff.1 (selectMin_mem _ c1 xs1)
  have m2mem : (selectMin (nodeLT sc) c2 xs2).1 ∈ c1 :: xs1 :=
    hp.symm.mem_iff.1 (selectMin_mem _ c2 xs2)
  have heq : (selectMin (nodeLT sc) c1 xs1).1 = (selectMin (nodeLT sc) c2 xs2).1 :=
    nodeLT_antisymm sc _ _
      (selectMin_min sc xs2 c2 _ m1mem)
      (selectMin_min sc xs1 c1 _ m2mem)
  refine ⟨heq, ?_⟩
  have p1 := selectMin_cons_perm (nodeLT sc) xs1 c1
  have p2 := selectMin_cons_perm (nodeLT sc) xs2 c2
  have h12 : ((selectMin (nodeLT sc) c1 xs1).1 :: (selectMin (nodeLT sc) c1 xs1).2).Perm
      ((selectMin (nodeLT sc) c2 xs2).1 :: (selectMin (nodeLT sc) c2 xs2).2) :=
    (p1.trans hp).trans p2.symm
  rw [heq] at h12
  exact h12.cons_inv

/-- Two in-flight states that agree everywhere except for the internal order
of the frontier list. -/
def StEquiv (st st' : SearchState) : Prop :=
  st.frontier.Perm st'.frontier ∧ st.best = st'.best ∧ st.pred = st'.pred ∧
    st.expanded = st'.expanded ∧ st.gen = st'.gen

theorem expandNeighbor_equiv (g : CityGraph) (cur : SearchNode)
    (st st' : SearchState) (m : String) (h : StEquiv st st') :
    StEquiv (expandNeighbor g cur st m) (expandNeighbor g cur st' m) := by
  obtain ⟨hf, hb, hp, he, hg⟩ := h
  rw [expandNeighbor, expandNeighbor, hb]
  by_cases himp : (match lookupS st'.best m with
      | some old => decide (cur.gcost + g.cost cur.city m < old)
      | none => true) = true
  · simp only [himp, if_true]
    exact ⟨(hf.filter _).append_right _, by simp [hb], by simp [hp],
      by simp [he], by simp [hg]⟩
  · simp only [Bool.not_eq_true] at himp
    simp only [himp, if_false]
    exact ⟨hf, hb, hp, he, hg⟩

theorem expand_equiv (g : CityGraph) (cur : SearchNode) :
    ∀ (ms : List String) (st st' : SearchState), StEquiv st st' →
      StEquiv (ms.foldl (expandNeighbor g cur) st)
        (ms.foldl (expandNeighbor g cur) st') := by
  intro ms
  induction ms with
  | nil => intro st st' h; exact h
  | cons m ms ih =>
    intro st st' h
    exact ih _ _ (expandNeighbor_equiv g cur st st' m h)

theorem searchLoop_frontier_perm_invariant (g : CityGraph) (t : String)
    (sc : SearchNode → ℚ) :
    ∀ (fuel : Nat) (st st' : SearchState), StEquiv st st' →
      searchLoop g t sc fuel st = searchLoop g t sc fuel st' := by
  intro fuel
  induction fuel with
  | zero =>
    intro st st' h
    simp [searchLoop, failResult, h.2.2.2.2]
  | succ n ih =>
    intro st st' h
    obtain ⟨hf, hb, hp, he, hg⟩ := h
    cases h1 : st.frontier with
    | nil =>
      have h2 : st'.frontier = [] := (h1 ▸ hf).symm.eq_nil
      rw [searchLoop_nil g t sc n st h1, searchLoop_nil g t sc n st' h2]
      simp [failResult, hg]
    | cons c xs =>
      cases h2 : st'.frontier with
      | nil =>
        rw [h1, h2] at hf
        exact absurd hf.eq_nil (by simp)
      | cons c' xs' =>
        rw [searchLoop_cons g t sc n st c xs h1,
          searchLoop_cons g t sc n st' c' xs' h2]
        rw [h1, h2] at hf
        obtain ⟨hm, hrest⟩ := selectMin_perm_eq sc c c' xs xs' hf
        rw [hm]
        by_cases hc : (selectMin (nodeLT sc) c' xs').1.city = t
        · rw [if_pos hc, if_pos hc]
          simp [successResult, hp, hg]
        · rw [if_neg hc, if_neg hc]
          exact ih _ _ (expand_equiv g _ _ _ _
            ⟨hrest, hb, hp, by simp [he], hg⟩)

/-- C7: search is a pure function of its input — two calls with the same
origin, destination, algorithm, heuristic, graph and bound return the same
SearchResult — and the result is moreover independent of the incidental
internal order of the frontier list, because the tie-breaking rule (score,
then cumulative cost, then city identifier) makes the popped node unique. -/
theorem search_deterministic (g : CityGraph) (d : String → String → ℚ)
    (bound : Nat) (o t : String) (alg : Algo) (ht : Heur) :
    run_search g d bound o t alg ht = run_search g d bound o t alg ht ∧
    ∀ (sc : SearchNode → ℚ) (fuel : Nat) (st st' : SearchState),
      st.frontier.Perm st'.frontier → st.best = st'.best →
      st.pred = st'.pred → st.expanded = st'.expanded → st.gen = st'.gen →
      searchLoop g t sc fuel st = searchLoop g t sc fuel st' :=
  ⟨rfl, fun sc fuel st st' h1 h2 h3 h4 h5 =>
    searchLoop_frontier_perm_invariant g t sc fuel st st' ⟨h1, h2, h3, h4, h5⟩⟩

/-- C7 witness: the theorem applied to two states whose frontiers hold the
same two nodes in opposite order. -/
theorem search_deterministic_witness :
    run_search g3 d0 2 "A" "C" Algo.aStar Heur.straight =
      run_search g3 d0 2 "A" "C" Algo.aStar Heur.straight ∧
    searchLoop g3 "C" (fun n => n.gcost) 2
      ⟨[⟨"A", 0⟩, ⟨"B", 5⟩], [("A", 0), ("B", 5)], [("B", "A")], [], 2⟩ =
    searchLoop g3 "C" (fun n => n.gcost) 2
      ⟨[⟨"B", 5⟩, ⟨"A", 0⟩], [("A", 0), ("B", 5)], [("B", "A")], [], 2⟩ :=
  ⟨(search_deterministic g3 d0 2 "A" "C" Algo.aStar Heur.straight).1,
   (search_deterministic g3 d0 2 "A" "C" Algo.aStar Heur.straight).2
     (fun n => n.gcost) 2
     ⟨[⟨"A", 0⟩, ⟨"B", 5⟩], [("A", 0), ("B", 5)], [("B", "A")], [], 2⟩
     ⟨[⟨"B", 5⟩, ⟨"A", 0⟩], [("A", 0), ("B", 5)], [("B", "A")], [], 2⟩
     (List.Perm.swap (⟨"B", 5⟩ : SearchNode) (⟨"A", 0⟩ : SearchNode) [])
     rfl rfl rfl rfl⟩

theorem walkCost_nonneg (g : CityGraph) (Hc : ∀ a b, 0 ≤ g.cost a b) :
    ∀ l, 0 ≤ walkCost g l := by
  intro l
  induction l with
  | nil => simp [walkCost]
  | cons a rest ih =>
    cases rest with
    | nil => simp [walkCost]
    | cons b rest2 =>
      rw [walkCost]
      exact add_nonneg (Hc a b) ih

theorem walkCost_concat (g : CityGraph) :
    ∀ (l : List String) (a c : String), l.getLast? = some a →
      walkCost g (l ++ [c]) = walkCost g l + g.cost a c := by
  intro l
  induction l with
  | nil => intro a c h; simp at h
  | cons x rest ih =>
    intro a c h
    cases rest with
    | nil =>
      simp only [List.getLast?_singleton, Option.some.injEq] at h
      subst h
      simp [walkCost]
    | cons y rest2 =>
      rw [List.getLast?_cons_cons] at h
      have := ih a c h
      simp only [List.cons_append] at this ⊢
      rw [walkCost, walkCost, this]
      ring

theorem walkCost_split (g : CityGraph) :
    ∀ (l1 : List String) (v : String) (l2 : List String),
      walkCost g (l1 ++ v :: l2) =
        walkCost g (l1 ++ [v]) + walkCost g (v :: l2) := by
  intro l1
  induction l1 with
  | nil =>
    intro v l2
    simp [walkCost]
  | cons x l1 ih =>
    intro v l2
    cases l1 with
    | nil =>
      simp only [List.cons_append, List.nil_append]
      rw [walkCost]
      have h1 : walkCost g [x, v] = g.cost x v := by simp [walkCost]
      rw [h1]
    | cons y l1' =>
      simp only [List.cons_append] at ih ⊢
      rw [walkCost, walkCost, ih v l2]
      ring

theorem chainAdjB_suffix (g : CityGraph) :
    ∀ (l1 l2 : List String), chainAdjB g (l1 ++ l2) = true →
      chainAdjB g l2 = true := by
  intro l1
  induction l1 with
  | nil => intro l2 h; exact h
  | cons x l1 ih =>
    intro l2 h
    rw [List.cons_append] at h
    apply ih
    cases hl : l1 ++ l2 with
    | nil => rfl
    | cons z zs =>
      rw [hl] at h
      rw [chainAdjB, Bool.and_eq_true] at h
      exact h.2

theorem walk_suffix (g : CityGraph) (o t : String) (l1 : List String)
    (v : String) (l2 : List String) (hw : IsWalk g o t (l1 ++ v :: l2)) :
    IsWalk g v t (v :: l2) := by
  obtain ⟨h1, h2, h3⟩ := hw
  refine ⟨rfl, ?_, chainAdjB_suffix g l1 (v :: l2) h3⟩
  rw [List.getLast?_append] at h2
  obtain ⟨w, hw2⟩ := Option.isSome_iff_exists.1
    (List.getLast?_isSome.2 (List.cons_ne_nil v l2))
  rw [hw2] at h2
  rw [Option.or_some] at h2
  rw [hw2, h2]

theorem walk_junction (g : CityGraph) (v v2 : String) (l2 : List String)
    (h : chainAdjB g (v :: v2 :: l2) = true) : v2 ∈ g.nbrs v := by
  rw [chainAdjB, Bool.and_eq_true] at h
  exact of_decide_eq_true h.1

theorem walk_last_of_suffix_nil (g : CityGraph) (o t : String)
    (l1 : List String) (v : String) (hw : IsWalk g o t (l1 ++ [v])) : v = t := by
  obtain ⟨_, h2, _⟩ := hw
  rw [List.getLast?_concat] at h2
  exact Option.some.inj h2

theorem lookupS_cons_self {α : Type} (l : List (String × α)) (k : String)
    (v : α) : lookupS ((k, v) :: l) k = some v := by
  simp [lookupS]

theorem lookupS_cons_ne {α : Type} (l : List (String × α)) (k c : String)
    (v : α) (h : k ≠ c) : lookupS ((k, v) :: l) c = lookupS l c := by
  simp [lookupS, h]

/-- Frontier/best agreement: every frontier node carries exactly the recorded
cost-so-far of its city. -/
def FBInv (st : SearchState) : Prop :=
  ∀ n ∈ st.frontier, lookupS st.best n.city = some n.gcost

/-- Every recorded cost is witnessed in the frontier or among the expanded
records. -/
def GIInv (st : SearchState) : Prop :=
  ∀ c b, lookupS st.best c = some b →
    (∃ n ∈ st.frontier, n.city = c ∧ n.gcost = b) ∨ (c, b) ∈ st.expanded

/-- Every expanded node has relaxed each of its neighbors. -/
def EXPInv (g : CityGraph) (st : SearchState) : Prop :=
  ∀ cb ∈ st.expanded, ∀ m ∈ g.nbrs cb.1,
    ∃ bm, lookupS st.best m = some bm ∧ bm ≤ cb.2 + g.cost cb.1 m

/-- Predecessor-map soundness: recorded costs are nonnegative, the origin has
cost 0 and no predecessor, and every other recorded city has a predecessor
whose recorded cost plus the connecting edge is within its own cost. -/
def PREDInv (g : CityGraph) (o : String) (st : SearchState) : Prop :=
  lookupS st.pred o = none ∧ lookupS st.best o = some 0 ∧
    ∀ c b, lookupS st.best c = some b → 0 ≤ b ∧ (c ≠ o →
      ∃ p bp, lookupS st.pred c = some p ∧ lookupS st.best p = some bp ∧
        bp + g.cost p c ≤ b)

/-- The target has never been expanded (otherwise the loop would have
terminated). -/
def TNEInv (t : String) (st : SearchState) : Prop :=
  ∀ b, (t, b) ∉ st.expanded

/-- Along the fixed walk `l`, some vertex has a recorded cost within its
prefix cost. -/
def BWInv (g : CityGraph) (l : List String) (st : SearchState) : Prop :=
  ∃ l1 v l2 bv, l = l1 ++ v :: l2 ∧ lookupS st.best v = some bv ∧
    bv ≤ walkCost g (l1 ++ [v])

/-- Recorded costs only ever decrease, and recorded cities stay recorded. -/
def bestLE (st st' : SearchState) : Prop :=
  ∀ c b, lookupS st.best c = some b →
    ∃ b', lookupS st'.best c = some b' ∧ b' ≤ b

theorem bestLE_refl (st : SearchState) : bestLE st st :=
  fun _ b h => ⟨b, h, le_refl b⟩

theorem bestLE_trans {s1 s2 s3 : SearchState} (h1 : bestLE s1 s2)
    (h2 : bestLE s2 s3) : bestLE s1 s3 := by
  intro c b h
  obtain ⟨b', hb', hle'⟩ := h1 c b h
  obtain ⟨b'', hb'', hle''⟩ := h2 c b' hb'
  exact ⟨b'', hb'', le_trans hle'' hle'⟩

theorem expandNeighbor_cases (g : CityGraph) (cur : SearchNode)
    (st : SearchState) (m : String) :
    (expandNeighbor g cur st m = st ∧
      ∃ old, lookupS st.best m = some old ∧
        old ≤ cur.gcost + g.cost cur.city m) ∨
    ((∀ old, lookupS st.best m = some old →
        cur.gcost + g.cost cur.city m < old) ∧
      expandNeighbor g cur st m =
        { frontier := st.frontier.filter (fun n => n.city != m) ++
            [⟨m, cur.gcost + g.cost cur.city m⟩],
          best := (m, cur.gcost + g.cost cur.city m) :: st.best,
          pred := (m, cur.city) :: st.pred,
          expanded := st.expanded,
          gen := st.gen + 1 }) := by
  rw [expandNeighbor]
  cases hlk : lookupS st.best m with
  | none =>
    right
    refine ⟨fun old h => absurd h (by simp), rfl⟩
  | some old =>
    by_cases hlt : cur.gcost + g.cost cur.city m < old
    · right
      refine ⟨fun old' h => by injection h with h'; exact h' ▸ hlt, ?_⟩
      simp [hlt]
    · left
      refine ⟨by simp [hlt], old, rfl, not_lt.1 hlt⟩

theorem expandNeighbor_bestLE (g : CityGraph) (cur : SearchNode)
    (st : SearchState) (m : String) :
    bestLE st (expandNeighbor g cur st m) := by
  rcases expandNeighbor_cases g cur st m with ⟨heq, _⟩ | ⟨hlt, heq⟩
  · rw [heq]; exact bestLE_refl st
  · intro c b h
    rw [heq]
    by_cases hcm : m = c
    · subst hcm
      exact ⟨cur.gcost + g.cost cur.city m, lookupS_cons_self _ _ _,
        le_of_lt (hlt b h)⟩
    · exact ⟨b, by rw [lookupS_cons_ne _ _ _ _ hcm]; exact h, le_refl b⟩

theorem expandNeighbor_expanded (g : CityGraph) (cur : SearchNode)
    (st : SearchState) (m : String) :
    (expandNeighbor g cur st m).expanded = st.expanded := by
  rcases expandNeighbor_cases g cur st m with ⟨heq, _⟩ | ⟨_, heq⟩ <;>
    rw [heq]

theorem foldl_bestLE (g : CityGraph) (cur : SearchNode) :
    ∀ (ms : List String) (st : SearchState),
      bestLE st (ms.foldl (expandNeighbor g cur) st) := by
  intro ms
  induction ms with
  | nil => intro st; exact bestLE_refl st
  | cons m ms ih =>
    intro st
    exact bestLE_trans (expandNeighbor_bestLE g cur st m)
      (ih (expandNeighbor g cur st m))

theorem foldl_expanded (g : CityGraph) (cur : SearchNode) :
    ∀ (ms : List String) (st : SearchState),
      (ms.foldl (expandNeighbor g cur) st).expanded = st.expanded := by
  intro ms
  induction ms with
  | nil => intro st; rfl
  | cons m ms ih =>
    intro st
    rw [List.foldl_cons, ih, expandNeighbor_expanded]

theorem expandNeighbor_core (g : CityGraph) (o : String) (cur : SearchNode)
    (st : SearchState) (m : String)
    (Hc : ∀ a b, 0 ≤ g.cost a b)
    (hcur : ∃ bc, lookupS st.best cur.city = some bc ∧ bc ≤ cur.gcost)
    (hfb : FBInv st) (hgi : GIInv st) (hpred : PREDInv g o st) :
    FBInv (expandNeighbor g cur st m) ∧ GIInv (expandNeighbor g cur st m) ∧
      PREDInv g o (expandNeighbor g cur st m) ∧
      ∃ bc, lookupS (expandNeighbor g cur st m).best cur.city = some bc ∧
        bc ≤ cur.gcost := by
  rcases expandNeighbor_cases g cur st m with ⟨heq, _⟩ | ⟨hlt, heq⟩
  · rw [heq]; exact ⟨hfb, hgi, hpred, hcur⟩
  obtain ⟨bc, hbc, hbcle⟩ := hcur
  have hbc0 : 0 ≤ bc := (hpred.2.2 cur.city bc hbc).1
  have hgnew0 : 0 ≤ cur.gcost + g.cost cur.city m :=
    add_nonneg (le_trans hbc0 hbcle) (Hc cur.city m)
  have hmnec : m ≠ cur.city := by
    intro h
    have := hlt bc (h ▸ hbc)
    have : cur.gcost + g.cost cur.city m < cur.gcost :=
      lt_of_lt_of_le this hbcle
    nlinarith [Hc cur.city m]
  have hmno : m ≠ o := by
    intro h
    have := hlt 0 (h ▸ hpred.2.1)
    exact absurd this (not_lt.2 hgnew0)
  rw [heq]
  refine ⟨?_, ?_, ⟨?_, ?_, ?_⟩, ?_⟩
  · -- FBInv
    intro n hn
    rcases List.mem_append.1 hn with hn | hn
    · have hne : n.city ≠ m := by
        have := List.of_mem_filter hn
        simpa using this
      rw [lookupS_cons_ne _ _ _ _ (fun h => hne h.symm)]
      exact hfb n (List.mem_of_mem_filter hn)
    · simp only [List.mem_singleton] at hn
      subst hn
      exact lookupS_cons_self _ _ _
  · -- GIInv
    intro c b h
    by_cases hcm : m = c
    · subst hcm
      rw [lookupS_cons_self] at h
      injection h with h'
      subst h'
      exact Or.inl ⟨⟨m, cur.gcost + g.cost cur.city m⟩,
        List.mem_append.2 (Or.inr (List.mem_singleton.2 rfl)), rfl, rfl⟩
    · rw [lookupS_cons_ne _ _ _ _ hcm] at h
      rcases hgi c b h with ⟨n, hn, hnc, hng⟩ | hexp
      · refine Or.inl ⟨n, List.mem_append.2 (Or.inl ?_), hnc, hng⟩
        refine List.mem_filter.2 ⟨hn, ?_⟩
        simp only [hnc, bne_iff_ne, ne_eq]
        exact fun h => hcm h.symm
      · exact Or.inr hexp
  · -- pred at o
    rw [lookupS_cons_ne _ _ _ _ hmno]
    exact hpred.1
  · -- best at o
    rw [lookupS_cons_ne _ _ _ _ hmno]
    exact hpred.2.1
  · -- pred entries
    intro c b h
    by_cases hcm : m = c
    · subst hcm
      rw [lookupS_cons_self] at h
      injection h with h'
      subst h'
      refine ⟨hgnew0, fun _ => ?_⟩
      refine ⟨cur.city, bc, lookupS_cons_self _ _ _, ?_, ?_⟩
      · rw [lookupS_cons_ne _ _ _ _ hmnec]
        exact hbc
      · exact add_le_add_right hbcle _
    · rw [lookupS_cons_ne _ _ _ _ hcm] at h
      obtain ⟨hb0, hrest⟩ := hpred.2.2 c b h
      refine ⟨hb0, fun hco => ?_⟩
      obtain ⟨p, bp, hp, hbp, hple⟩ := hrest hco
      refine ⟨p, ?_⟩
      by_cases hpm : m = p
      · subst hpm
        refine ⟨cur.gcost + g.cost cur.city m,
          by rw [lookupS_cons_ne _ _ _ _ hcm]; exact hp,
          lookupS_cons_self _ _ _, ?_⟩
        have := hlt bp hbp
        calc cur.gcost + g.cost cur.city m + g.cost m c
            ≤ bp + g.cost m c := add_le_add_right (le_of_lt this) _
          _ ≤ b := hple
      · exact ⟨bp, by rw [lookupS_cons_ne _ _ _ _ hcm]; exact hp,
          by rw [lookupS_cons_ne _ _ _ _ hpm]; exact hbp, hple⟩
  · -- hcur preserved
    refine ⟨bc, ?_, hbcle⟩
    rw [lookupS_cons_ne _ _ _ _ hmnec]
    exact hbc

theorem expand_core (g : CityGraph) (o : String) (cur : SearchNode)
    (Hc : ∀ a b, 0 ≤ g.cost a b) :
    ∀ (ms : List String) (st : SearchState),
      (∃ bc, lookupS st.best cur.city = some bc ∧ bc ≤ cur.gcost) →
      FBInv st → GIInv st → PREDInv g o st →
      FBInv (ms.foldl (expandNeighbor g cur) st) ∧
        GIInv (ms.foldl (expandNeighbor g cur) st) ∧
        PREDInv g o (ms.foldl (expandNeighbor g cur) st) := by
  intro ms
  induction ms with
  | nil => intro st _ hfb hgi hpred; exact ⟨hfb, hgi, hpred⟩
  | cons m ms ih =>
    intro st hcur hfb hgi hpred
    obtain ⟨hfb', hgi', hpred', hcur'⟩ :=
      expandNeighbor_core g o cur st m Hc hcur hfb hgi hpred
    exact ih (expandNeighbor g cur st m) hcur' hfb' hgi' hpred'

theorem expand_relaxes (g : CityGraph) (cur : SearchNode) :
    ∀ (ms : List String) (st : SearchState) (mm : String), mm ∈ ms →
      ∃ bm, lookupS ((ms.foldl (expandNeighbor g cur) st)).best mm = some bm ∧
        bm ≤ cur.gcost + g.cost cur.city mm := by
  intro ms
  induction ms with
  | nil => intro st mm h; exact absurd h (by simp)
  | cons m ms ih =>
    intro st mm hmm
    rcases List.mem_cons.1 hmm with rfl | hmm'
    · have hone : ∃ b0, lookupS (expandNeighbor g cur st mm).best mm = some b0 ∧
          b0 ≤ cur.gcost + g.cost cur.city mm := by
        rcases expandNeighbor_cases g cur st mm with ⟨heq, old, hold, holdle⟩ |
          ⟨_, heq⟩
        · exact ⟨old, by rw [heq]; exact hold, holdle⟩
        · exact ⟨cur.gcost + g.cost cur.city mm,
            by rw [heq]; exact lookupS_cons_self _ _ _, le_refl _⟩
      obtain ⟨b0, hb0, hb0le⟩ := hone
      obtain ⟨b1, hb1, hb1le⟩ :=
        foldl_bestLE g cur ms (expandNeighbor g cur st mm) mm b0 hb0
      exact ⟨b1, hb1, le_trans hb1le hb0le⟩
    · exact ih (expandNeighbor g cur st m) mm hmm'

theorem exp_preserved (g : CityGraph) (st st' : SearchState)
    (hexp : st'.expanded = st.expanded) (hble : bestLE st st')
    (h : EXPInv g st) : EXPInv g st' := by
  intro cb hcb m hm
  obtain ⟨bm, hbm, hbmle⟩ := h cb (hexp ▸ hcb) m hm
  obtain ⟨bm', hbm', hbm'le⟩ := hble m bm hbm
  exact ⟨bm', hbm', le_trans hbm'le hbmle⟩

theorem bw_mono (g : CityGraph) (l : List String) (st st' : SearchState)
    (hble : bestLE st st') (h : BWInv g l st) : BWInv g l st' := by
  obtain ⟨l1, v, l2, bv, hdec, hlk, hle⟩ := h
  obtain ⟨bv', hlk', hle'⟩ := hble v bv hlk
  exact ⟨l1, v, l2, bv', hdec, hlk', le_trans hle' hle⟩

theorem nodeLT_false_score_le (sc : SearchNode → ℚ) (a b : SearchNode)
    (h : nodeLT sc a b = false) : sc b ≤ sc a := by
  rw [nodeLT] at h
  rcases Bool.or_eq_false_iff.1 h with ⟨h1, _⟩
  exact not_lt.1 (of_decide_eq_false h1)

theorem chain_to_frontier (g : CityGraph) (o t : String) (l : List String)
    (hw : IsWalk g o t l) (st : SearchState)
    (hgi : GIInv st) (hexp : EXPInv g st) (htne : TNEInv t st) :
    ∀ (l2 l1 : List String) (v : String) (bv : ℚ),
      l = l1 ++ v :: l2 → lookupS st.best v = some bv →
      bv ≤ walkCost g (l1 ++ [v]) →
      ∃ l1' v' l2' n, l = l1' ++ v' :: l2' ∧ n ∈ st.frontier ∧
        n.city = v' ∧ n.gcost ≤ walkCost g (l1' ++ [v']) := by
  intro l2
  induction l2 with
  | nil =>
    intro l1 v bv hdec hlk hle
    rcases hgi v bv hlk with ⟨n, hn, hnc, hng⟩ | hex
    · exact ⟨l1, v, [], n, hdec, hn, hnc, by rw [hng]; exact hle⟩
    · have hvt : v = t :=
        walk_last_of_suffix_nil g o t l1 v (by rw [← hdec]; exact hw)
      subst hvt
      exact absurd hex (htne bv)
  | cons v2 l2' ih =>
    intro l1 v bv hdec hlk hle
    rcases hgi v bv hlk with ⟨n, hn, hnc, hng⟩ | hex
    · exact ⟨l1, v, v2 :: l2', n, hdec, hn, hnc, by rw [hng]; exact hle⟩
    · have hchain : chainAdjB g (v :: v2 :: l2') = true := by
        have h3 := hw.2.2
        rw [hdec] at h3
        exact chainAdjB_suffix g l1 _ h3
      have hadj : v2 ∈ g.nbrs v := walk_junction g v v2 l2' hchain
      obtain ⟨bm, hbm, hbmle⟩ := hexp (v, bv) hex v2 hadj
      have hbound : bm ≤ walkCost g ((l1 ++ [v]) ++ [v2]) := by
        rw [walkCost_concat g (l1 ++ [v]) v v2 (List.getLast?_concat _)]
        calc bm ≤ bv + g.cost v v2 := hbmle
          _ ≤ walkCost g (l1 ++ [v]) + g.cost v v2 := add_le_add_right hle _
      exact ih (l1 ++ [v]) v2 bm (by rw [hdec, List.append_assoc]; rfl)
        hbm hbound

theorem reconstruct_cost (g : CityGraph) (o : String) (st : SearchState)
    (hpred : PREDInv g o st) :
    ∀ (fuel : Nat) (c : String) (b : ℚ), lookupS st.best c = some b →
      walkCost g (reconstruct st.pred fuel c) ≤ b := by
  intro fuel
  induction fuel with
  | zero =>
    intro c b h
    have h0 : walkCost g (reconstruct st.pred 0 c) = 0 := rfl
    rw [h0]
    exact (hpred.2.2 c b h).1
  | succ n ih =>
    intro c b h
    rw [reconstruct]
    cases hp : lookupS st.pred c with
    | none =>
      have h0 : walkCost g [c] = 0 := rfl
      rw [h0]
      exact (hpred.2.2 c b h).1
    | some p =>
      have hco : c ≠ o := by
        intro hc
        rw [hc, hpred.1] at hp
        exact absurd hp (by simp)
      obtain ⟨p', bp, hp', hbp, hple⟩ := (hpred.2.2 c b h).2 hco
      have hpp : p' = p := by
        rw [hp] at hp'
        exact (Option.some.inj hp').symm
      subst hpp
      rw [walkCost_concat g _ p' c (reconstruct_getLast st.pred n p')]
      have := ih p' bp hbp
      linarith

theorem searchLoop_astar_le (g : CityGraph) (o t : String)
    (d : String → String → ℚ)
    (Hc : ∀ a b, 0 ≤ g.cost a b)
    (Hd0 : ∀ x, 0 ≤ d x t)
    (Hadm : ∀ x lw, IsWalk g x t lw → d x t ≤ walkCost g lw)
    (sc : SearchNode → ℚ) (hsc : ∀ n, sc n = n.gcost + d n.city t)
    (l : List String) (hw : IsWalk g o t l) :
    ∀ (fuel : Nat) (st : SearchState),
      FBInv st → GIInv st → EXPInv g st → PREDInv g o st → TNEInv t st →
      BWInv g l st →
      ∀ c, (searchLoop g t sc fuel st).total_cost = some c →
        c ≤ walkCost g l := by
  intro fuel
  induction fuel with
  | zero =>
    intro st _ _ _ _ _ _ c h
    exact absurd h (by simp [searchLoop, failResult])
  | succ fn ih =>
    intro st hfb hgi hexp hpred htne hbw c h
    cases hf : st.frontier with
    | nil =>
      rw [searchLoop_nil g t sc fn st hf] at h
      exact absurd h (by simp [failResult])
    | cons cn xs =>
      rw [searchLoop_cons g t sc fn st cn xs hf] at h
      have hMmem : (selectMin (nodeLT sc) cn xs).1 ∈ st.frontier := by
        rw [hf]; exact selectMin_mem _ _ _
      have hMbest : lookupS st.best (selectMin (nodeLT sc) cn xs).1.city =
          some (selectMin (nodeLT sc) cn xs).1.gcost := hfb _ hMmem
      by_cases hc : (selectMin (nodeLT sc) cn xs).1.city = t
      · rw [if_pos hc] at h
        have hceq : c =
            walkCost g (reconstruct st.pred st.pred.length t) := by
          simpa [successResult] using h.symm
        obtain ⟨l1, v, l2, bv, hdec, hlk, hle⟩ := hbw
        obtain ⟨l1', v', l2', n, hdec', hnf, hnc, hng⟩ :=
          chain_to_frontier g o t l hw st hgi hexp htne l2 l1 v bv hdec hlk hle
        have hmin : nodeLT sc n (selectMin (nodeLT sc) cn xs).1 = false := by
          apply selectMin_min sc xs cn n
          rw [← hf]; exact hnf
        have hscle : sc (selectMin (nodeLT sc) cn xs).1 ≤ sc n :=
          nodeLT_false_score_le sc n _ hmin
        rw [hsc, hsc, hc, hnc] at hscle
        have hsuffix : IsWalk g v' t (v' :: l2') :=
          walk_suffix g o t l1' v' l2' (by rw [← hdec']; exact hw)
        have hadm' := Hadm v' (v' :: l2') hsuffix
        have hsplit : walkCost g l =
            walkCost g (l1' ++ [v']) + walkCost g (v' :: l2') := by
          rw [hdec']; exact walkCost_split g l1' v' l2'
        have hrec : walkCost g (reconstruct st.pred st.pred.length t) ≤
            (selectMin (nodeLT sc) cn xs).1.gcost := by
          apply reconstruct_cost g o st hpred
          rw [← hc]; exact hMbest
        have hd0t := Hd0 t
        rw [hceq]
        calc walkCost g (reconstruct st.pred st.pred.length t)
            ≤ (selectMin (nodeLT sc) cn xs).1.gcost := hrec
          _ ≤ (selectMin (nodeLT sc) cn xs).1.gcost + d t t := by linarith
          _ ≤ n.gcost + d v' t := hscle
          _ ≤ n.gcost + walkCost g (v' :: l2') := by linarith
          _ ≤ walkCost g (l1' ++ [v']) + walkCost g (v' :: l2') := by
              have := hng; linarith
          _ = walkCost g l := hsplit.symm
      · rw [if_neg hc] at h
        set M := (selectMin (nodeLT sc) cn xs).1 with hM
        set R := (selectMin (nodeLT sc) cn xs).2 with hR
        set st1 : SearchState :=
          { frontier := R, best := st.best, pred := st.pred,
            expanded := (M.city, M.gcost) :: st.expanded,
            gen := st.gen } with hst1
        have hperm : (M :: R).Perm (cn :: xs) := selectMin_cons_perm _ xs cn
        have hfb1 : FBInv st1 := by
          intro n hn
          apply hfb
          rw [hf]
          exact hperm.mem_iff.1 (List.mem_cons_of_mem M hn)
        have hgi1 : GIInv st1 := by
          intro c' b hb
          rcases hgi c' b hb with ⟨n, hn, hnc, hng⟩ | hex
          · rw [hf] at hn
            rcases List.mem_cons.1 (hperm.symm.mem_iff.1 hn) with rfl | hnR
            · right
              show (c', b) ∈ (M.city, M.gcost) :: st.expanded
              rw [hnc, hng]
              exact List.mem_cons_self _ _
            · exact Or.inl ⟨n, hnR, hnc, hng⟩
          · exact Or.inr (List.mem_cons_of_mem _ hex)
        have hpred1 : PREDInv g o st1 := hpred
        have htne1 : TNEInv t st1 := by
          intro b hb
          rcases List.mem_cons.1 hb with hhd | htl
          · have : t = M.city := congrArg Prod.fst hhd
            exact hc this.symm
          · exact htne b htl
        have hcur1 : ∃ bc, lookupS st1.best M.city = some bc ∧
            bc ≤ M.gcost := ⟨M.gcost, hMbest, le_refl _⟩
        have hcore := expand_core g o M Hc (g.nbrs M.city) st1 hcur1 hfb1
          hgi1 hpred1
        have hble1 : bestLE st1 (expand g M st1) :=
          foldl_bestLE g M (g.nbrs M.city) st1
        have hble0 : bestLE st st1 := fun c' b hb => ⟨b, hb, le_refl b⟩
        have hexpexp : (expand g M st1).expanded = st1.expanded :=
          foldl_expanded g M (g.nbrs M.city) st1
        have hexp2 : EXPInv g (expand g M st1) := by
          intro cb hcb m hm
          rw [hexpexp] at hcb
          rcases List.mem_cons.1 hcb with rfl | htl
          · exact expand_relaxes g M (g.nbrs M.city) st1 m hm
          · obtain ⟨bm, hbm, hbmle⟩ := hexp cb htl m hm
            obtain ⟨bm', hbm', hbm'le⟩ :=
              (bestLE_trans hble0 hble1) m bm hbm
            exact ⟨bm', hbm', le_trans hbm'le hbmle⟩
        have htne2 : TNEInv t (expand g M st1) := by
          intro b hb
          rw [hexpexp] at hb
          exact htne1 b hb
        have hbw2 : BWInv g l (expand g M st1) :=
          bw_mono g l st _ (bestLE_trans hble0 hble1) hbw
        exact ih (expand g M st1) hcore.1 hcore.2.1 hexp2 hcore.2.2
          htne2 hbw2 c h

/-- C1: whenever `search(origin, destination, A_STAR, STRAIGHT_LINE)` on a
graph with nonnegative edge costs and an admissible (and nonnegative)
straight-line base distance returns a path with a total cost, that cost is
less than or equal to the cost of every existing walk between the same
origin and destination. -/
theorem astar_straightline_optimal (g : CityGraph)
    (d : String → String → ℚ) (bound : Nat) (o t : String)
    (r : SearchResult) (p : List String) (c : ℚ)
    (Hc : ∀ a b, 0 ≤ g.cost a b)
    (Hd0 : ∀ x, 0 ≤ d x t)
    (Hadm : ∀ x lw, IsWalk g x t lw → d x t ≤ walkCost g lw)
    (hr : run_search g d bound o t Algo.aStar Heur.straight = Except.ok r)
    (hp : r.path = some p) (hc : r.total_cost = some c) :
    ∀ l, IsWalk g o t l → c ≤ walkCost g l := by
  intro l hw
  rw [run_search] at hr
  by_cases ho : o ∈ g.cities
  · by_cases hd : t ∈ g.cities
    · rw [if_pos ho, if_pos hd] at hr
      injection hr with hr'
      subst hr'
      refine searchLoop_astar_le g o t d Hc Hd0 Hadm _ (fun n => rfl) l hw
        bound (initState o) ?_ ?_ ?_ ?_ ?_ ?_ c hc
      · intro n hn
        simp only [initState, List.mem_singleton] at hn
        subst hn
        simp [initState, lookupS]
      · intro c' b hb
        simp only [initState] at hb
        rw [lookupS] at hb
        by_cases ho' : o = c'
        · rw [if_pos ho'] at hb
          injection hb with hb'
          subst hb'
          exact Or.inl ⟨⟨o, 0⟩, by simp [initState], ho', rfl⟩
        · rw [if_neg ho'] at hb
          exact absurd hb (by simp [lookupS])
      · intro cb hcb
        exact absurd hcb (by simp [initState])
      · refine ⟨rfl, by simp [initState, lookupS], ?_⟩
        intro c' b hb
        simp only [initState] at hb
        rw [lookupS] at hb
        by_cases ho' : o = c'
        · rw [if_pos ho'] at hb
          injection hb with hb'
          subst hb'
          exact ⟨le_refl 0, fun hne => absurd ho'.symm hne⟩
        · rw [if_neg ho'] at hb
          exact absurd hb (by simp [lookupS])
      · intro b hb
        exact absurd hb (by simp [initState])
      · cases hl : l with
        | nil => rw [hl] at hw; exact absurd hw.1 (by simp)
        | cons a l2 =>
          have ha : a = o := by
            have h1 := hw.1
            rw [hl] at h1
            exact Option.some.inj h1
          subst ha
          refine ⟨[], a, l2, 0, rfl,
            by simp [initState, lookupS], ?_⟩
          have h0 : walkCost g ([] ++ [a]) = 0 := rfl
          rw [h0]
    · rw [if_pos ho, if_neg hd] at hr
      exact absurd hr (by simp)
  · rw [if_neg ho] at hr
    exact absurd hr (by simp)

/-- C1 witness: on the three-city example graph with the everywhere-zero
(admissible) base distance, the returned cost 20 is within the cost of the
concrete competing walk `[A, B, C]`. -/
theorem astar_straightline_optimal_witness :
    (20 : ℚ) ≤ walkCost g3 ["A", "B", "C"] :=
  astar_straightline_optimal g3 d0 3 "A" "C"
    { path := some ["A","B","C"], meeting_point := some "C",
      total_cost := some 20, nodes_generated := 3 }
    ["A","B","C"] 20
    (fun a b => by norm_num [g3])
    (fun x => le_refl 0)
    (fun x lw hwx => walkCost_nonneg g3 (fun a b => by norm_num [g3]) lw)
    (by simp [run_search, g3, d0, searchLoop, initState, selectMin, expand,
        expandNeighbor, lookupS, nodeLT, scoreOf, heuristicFn, successResult,
        failResult, reconstruct, walkCost]
        norm_num
        simp [selectMin, nodeLT, scoreOf, successResult, failResult,
          reconstruct, lookupS, walkCost, g3])
    rfl rfl
    ["A","B","C"] ⟨rfl, rfl, by decide⟩
